import Mathlib

/-!
Verification of `groups_sync.py`, a one-shot tool that reconciles the
membership of a remote (UW Groups Web Service) group with a local
(NSS `getent`) group.  The Python source is shallowly embedded below:
pure helpers become Lean functions, and the effectful main loop becomes
a trace-producing interpreter driven by explicit oracles for the
outcomes of the remote HTTP calls.
-/

namespace GroupsSync

/-! ## Identifier validator

`get_uw_group_members` keeps a member id only when
`re.match("^[a-z][a-z0-9]{0,7}$", member["id"])` succeeds.  Python's `$`
matches at the end of the string *or just before a newline at the end of
the string*, so the code also accepts a match followed by one trailing
newline.  `netidCore` is the fully anchored core pattern; `reMatchNetid`
is the embedding of the Python call, trailing-newline allowance included. -/

def isLowerAZ (c : Char) : Bool := 'a' ≤ c && c ≤ 'z'

def isDigit09 (c : Char) : Bool := '0' ≤ c && c ≤ '9'

def isLowerDigit (c : Char) : Bool := isLowerAZ c || isDigit09 c

/-- The anchored core pattern `[a-z][a-z0-9]{0,7}` matched against the whole
character list. -/
def netidCore : List Char → Bool
  | [] => false
  | c :: rest => isLowerAZ c && decide (rest.length ≤ 7) && rest.all isLowerDigit

/-- Embedding of `re.match("^[a-z][a-z0-9]{0,7}$", s)` viewed as a Boolean:
Python's `$` also matches just before a single trailing newline. -/
def reMatchNetid (s : List Char) : Bool :=
  netidCore s || (s.getLast? == some '\n' && netidCore s.dropLast)

/-- Modelled from the spec's words (for comparison with `reMatchNetid`):
"return true iff it matches `^[a-z][a-z0-9]{0,7}$` (anchored, case-sensitive,
ASCII)": nonempty, first character a lowercase ASCII letter, total length at
most 8, remaining characters lowercase ASCII alphanumeric. -/
def specNetidValid : List Char → Bool
  | [] => false
  | c :: rest =>
      isLowerAZ c && decide ((c :: rest).length ≤ 8)
        && rest.all (fun d => isLowerAZ d || isDigit09 d)

/-! ## Diff engine

In `main`, when `set(local) != set(remote)` the code collects
`add_members` (local members absent from the remote list) and
`remove_members` (remote members absent from the local list), in
iteration order; otherwise both stay empty. -/

/-- Embedding of `set(a) != set(b)` being false: the two lists have the same
elements. -/
def sameSet (a b : List String) : Bool :=
  a.all (fun x => b.contains x) && b.all (fun x => a.contains x)

/-- The `(add_members, remove_members)` pair computed by `main` for one group:
empty when the two lists agree as sets, otherwise the two filtered lists. -/
def computeDelta (localM remoteM : List String) : List String × List String :=
  if sameSet localM remoteM then ([], [])
  else
    (localM.filter (fun m => !remoteM.contains m),
     remoteM.filter (fun m => !localM.contains m))

/-! ## Batching

`main` splits each change list into slices `l[i : i + 50]` for
`i in range(0, len(l), 50)`. -/

def chunkSize : Nat := 50

/-- Fuel-indexed slicing loop; the fuel only serves structural recursion and
is irrelevant once it is at least the length of the list. -/
def chunksF : Nat → List α → List (List α)
  | _, [] => []
  | 0, l => [l]
  | fuel + 1, x :: xs =>
      (x :: xs).take chunkSize :: chunksF fuel ((x :: xs).drop chunkSize)

/-- The list of slices `l[i : i + 50]` for `i in range(0, len(l), 50)`. -/
def chunks (l : List α) : List (List α) := chunksF l.length l

/-! ## Local membership adapter

`get_local_group_members` runs `getent group <name>` and evaluates
`r.stdout.strip().split(":")[3].split(",")`.  We embed Python's
`str.split(sep)` (which returns `[""]` on the empty string) and
`str.strip()`; the index `[3]` raises `IndexError` when the record has
fewer than four `:`-separated fields, which the caller's `except` turns
into a fatal error, so the adapter returns an `Option`. -/

/-- Python's `str.split(sep)` for a one-character separator: splitting the
empty string yields `[""]`, and adjacent separators yield empty fields. -/
def pySplit (sep : Char) : List Char → List (List Char)
  | [] => [[]]
  | c :: rest =>
      if c = sep then [] :: pySplit sep rest
      else
        match pySplit sep rest with
        | [] => [[c]]
        | f :: fs => (c :: f) :: fs

/-- Python whitespace stripped by `str.strip()`. -/
def isPySpace (c : Char) : Bool :=
  c = ' ' || c = '\t' || c = '\n' || c = '\r' || c = '\x0b' || c = '\x0c'

/-- Embedding of `str.strip()`. -/
def pyStrip (s : List Char) : List Char :=
  ((s.dropWhile isPySpace).reverse.dropWhile isPySpace).reverse

/-- Embedding of `get_local_group_members`, as a function of the `getent`
standard output: `r.stdout.strip().split(":")[3].split(",")`.  `none`
models the `IndexError` raised when there is no fourth field. -/
def get_local_group_members (stdout : String) : Option (List String) :=
  ((pySplit ':' (pyStrip stdout.toList)).get? 3).map
    (fun f => (pySplit ',' f).map (fun cs => String.mk cs))

/-! ## Trace model of the main loop

The loop body issues HTTP calls through `requests`; we drive it with an
oracle: a list of `Except Unit Nat` outcomes, consumed one per batch
call, where `Except.ok code` is a completed call returning an HTTP
status code and `Except.error ()` is a transport-level exception.  When
the oracle is exhausted the call is taken to complete with status 200.
The interpreter records observable events (API calls, `STATUS` prints,
`time.sleep(1)`, the FATAL print + `sys.exit(1)`, the per-group summary
print). -/

inductive Ev where
  /-- `requests.put` on `/group/{g}/member/{ids}` carrying one batch. -/
  | put (batch : List String)
  /-- `requests.delete` on `/group/{g}/member/{ids}` carrying one batch. -/
  | del (batch : List String)
  /-- A `STATUS: ... CHUNK ... {status_code}` line. -/
  | status (code : Nat)
  /-- `time.sleep(1)`. -/
  | sleep
  /-- A `FATAL: ...` line followed by `sys.exit(1)`. -/
  | fatal
  /-- The `UWGROUP: ... ADD: {m} REM: {n}` summary line. -/
  | summary (nAdd nRem : Nat)
deriving DecidableEq, Repr

def mkCall (isAdd : Bool) (batch : List String) : Ev :=
  if isAdd then Ev.put batch else Ev.del batch

/-- One `for i in range(0, len(...), chunk_size)` loop (`isAdd` selects the
add or the remove loop): per batch, attempt the call; on completion print
the status and sleep one second; on an exception print FATAL and exit.
Returns the events, the unconsumed oracle suffix, and whether the process
exited. -/
def runBatches (isAdd : Bool) :
    List (List String) → List (Except Unit Nat) →
      List Ev × List (Except Unit Nat) × Bool
  | [], os => ([], os, false)
  | b :: bs, os =>
      let step : Except Unit Nat × List (Except Unit Nat) :=
        match os with
        | [] => (Except.ok 200, [])
        | o :: rest => (o, rest)
      match step.1 with
      | Except.ok code =>
          let r := runBatches isAdd bs step.2
          (mkCall isAdd b :: Ev.status code :: Ev.sleep :: r.1, r.2.1, r.2.2)
      | Except.error _ => ([mkCall isAdd b, Ev.fatal], step.2, true)

/-- The body of the per-group loop in `main`, after both membership lists
have been fetched: compute the delta; when non-empty, run the add batches
and then the remove batches; finally print the summary line (reached only
if no call raised, since `sys.exit(1)` aborts the process). -/
def runGroup (localM remoteM : List String) (os : List (Except Unit Nat)) :
    List Ev × List (Except Unit Nat) × Bool :=
  let d := computeDelta localM remoteM
  if sameSet localM remoteM then
    ([Ev.summary 0 0], os, false)
  else
    let ra := runBatches true (chunks d.1) os
    if ra.2.2 then ra
    else
      let rr := runBatches false (chunks d.2) ra.2.1
      if rr.2.2 then (ra.1 ++ rr.1, rr.2.1, true)
      else (ra.1 ++ rr.1 ++ [Ev.summary d.1.length d.2.length], rr.2.1, false)

/-- Environment for one configured group pair: the outcome of the remote
fetch (`get_uw_group_members`), the outcome of the local fetch
(`get_local_group_members`), and the oracle for the batch calls.  A fetch
outcome of `Except.error ()` models any exception while retrieving that
membership list. -/
structure GroupInput where
  rfetch : Except Unit (List String)
  lfetch : Except Unit (List String)
  oracle : List (Except Unit Nat)

/-- One iteration of `for uw_group, local_group in group_map.items()`: fetch
remote then local inside one `try`; on any exception print FATAL and exit;
otherwise run the group body. -/
def runGroupFull (g : GroupInput) : List Ev × Bool :=
  match g.rfetch with
  | Except.error _ => ([Ev.fatal], true)
  | Except.ok remoteM =>
      match g.lfetch with
      | Except.error _ => ([Ev.fatal], true)
      | Except.ok localM =>
          let r := runGroup localM remoteM g.oracle
          (r.1, r.2.2)

/-- The whole of `main`: process groups in order; `sys.exit(1)` on any
aborting group stops the run with exit code 1, otherwise exit code 0. -/
def runAll : List GroupInput → List Ev × Nat
  | [] => ([], 0)
  | g :: gs =>
      let r := runGroupFull g
      if r.2 then (r.1, 1)
      else
        let rest := runAll gs
        (r.1 ++ rest.1, rest.2)

/-! ## Trace observers -/

def Ev.isPut : Ev → Bool
  | Ev.put _ => true
  | _ => false

def Ev.isDel : Ev → Bool
  | Ev.del _ => true
  | _ => false

def Ev.isCall (e : Ev) : Bool := e.isPut || e.isDel

/-- The API calls (PUT or DELETE) appearing in a trace. -/
def apiCalls (tr : List Ev) : List Ev := tr.filter Ev.isCall

/-- The batches carried by the calls of a trace, in order. -/
def batchesOf : List Ev → List (List String)
  | [] => []
  | Ev.put b :: rest => b :: batchesOf rest
  | Ev.del b :: rest => b :: batchesOf rest
  | _ :: rest => batchesOf rest

/-- No PUT event occurs after any DELETE event. -/
def noPutAfterDel : List Ev → Bool
  | [] => true
  | Ev.del _ :: rest => rest.all (fun e => !e.isPut) && noPutAfterDel rest
  | _ :: rest => noPutAfterDel rest

/-- Every call event is immediately followed by its status line and then a
sleep. -/
def pacedOk : List Ev → Bool
  | [] => true
  | Ev.put _ :: Ev.status _ :: Ev.sleep :: rest => pacedOk rest
  | Ev.put _ :: _ => false
  | Ev.del _ :: Ev.status _ :: Ev.sleep :: rest => pacedOk rest
  | Ev.del _ :: _ => false
  | _ :: rest => pacedOk rest

def Ev.isStatus : Ev → Bool
  | Ev.status _ => true
  | _ => false

/-- The outcome is a completed call (no transport exception). -/
def okCall : Except Unit Nat → Bool
  | Except.ok _ => true
  | Except.error _ => false

/-- The oracle reports only completed calls (no transport exception). -/
def allOk (os : List (Except Unit Nat)) : Prop :=
  ∀ o ∈ os, okCall o = true

instance decAllOk (os : List (Except Unit Nat)) : Decidable (allOk os) :=
  inferInstanceAs (Decidable (∀ o ∈ os, okCall o = true))

instance decEqExcept : DecidableEq (Except Unit Nat) := fun a b =>
  match a, b with
  | Except.ok c, Except.ok d =>
      if h : c = d then isTrue (by rw [h]) else
        isFalse (by intro he; cases he; exact h rfl)
  | Except.error u, Except.error v =>
      isTrue (by cases u; cases v; rfl)
  | Except.ok _, Except.error _ => isFalse (by intro he; cases he)
  | Except.error _, Except.ok _ => isFalse (by intro he; cases he)

/-- The canonical shape of one batch loop's trace when every call completes:
one `[call, status, sleep]` triple per batch. -/
def tripleJoin (isAdd : Bool) : List (List String) → List Nat → List Ev
  | b :: bs, c :: cs =>
      mkCall isAdd b :: Ev.status c :: Ev.sleep :: tripleJoin isAdd bs cs
  | _, _ => []

/-! ## Helper lemmas -/

theorem chunksF_join (fuel : Nat) (l : List α) (h : l.length ≤ fuel) :
    (chunksF fuel l).flatten = l := by
  induction fuel generalizing l with
  | zero =>
    have hl : l = [] := List.length_eq_zero.mp (Nat.le_zero.mp h)
    subst hl
    rfl
  | succ n ih =>
    cases l with
    | nil => rfl
    | cons x xs =>
      simp only [chunksF, List.flatten_cons]
      rw [ih]
      · exact List.take_append_drop _ _
      · simp only [List.length_drop, List.length_cons, chunkSize]
        simp only [List.length_cons] at h
        omega

theorem chunksF_length (fuel : Nat) (l : List α) (h : l.length ≤ fuel) :
    (chunksF fuel l).length = (l.length + 49) / 50 := by
  induction fuel generalizing l with
  | zero =>
    have hl : l = [] := List.length_eq_zero.mp (Nat.le_zero.mp h)
    subst hl
    simp [chunksF]
  | succ n ih =>
    cases l with
    | nil => simp [chunksF]
    | cons x xs =>
      simp only [chunksF, List.length_cons]
      rw [ih]
      · simp only [List.length_drop, List.length_cons, chunkSize]
        omega
      · simp only [List.length_drop, List.length_cons, chunkSize]
        simp only [List.length_cons] at h
        omega

theorem chunksF_mem_le (fuel : Nat) (l : List α) (h : l.length ≤ fuel) :
    ∀ c ∈ chunksF fuel l, c.length ≤ 50 := by
  induction fuel generalizing l with
  | zero =>
    have hl : l = [] := List.length_eq_zero.mp (Nat.le_zero.mp h)
    subst hl
    intro c hc
    simp [chunksF] at hc
  | succ n ih =>
    cases l with
    | nil =>
      intro c hc
      simp [chunksF] at hc
    | cons x xs =>
      intro c hc
      simp only [chunksF, List.mem_cons] at hc
      rcases hc with hc | hc
      · subst hc
        calc ((x :: xs).take chunkSize).length ≤ chunkSize := by
              simp [List.length_take]
          _ ≤ 50 := by simp [chunkSize]
      · refine ih _ ?_ c hc
        simp only [List.length_drop, List.length_cons, chunkSize]
        simp only [List.length_cons] at h
        omega

theorem chunks_join (l : List α) : (chunks l).flatten = l :=
  chunksF_join _ _ le_rfl

theorem chunks_length (l : List α) : (chunks l).length = (l.length + 49) / 50 :=
  chunksF_length _ _ le_rfl

theorem chunks_mem_le (l : List α) : ∀ c ∈ chunks l, c.length ≤ 50 :=
  chunksF_mem_le _ _ le_rfl

theorem sameSet_mem (a b : List String) (h : sameSet a b = true) (x : String) :
    x ∈ a ↔ x ∈ b := by
  simp only [sameSet, Bool.and_eq_true, List.all_eq_true] at h
  constructor
  · intro hx
    have := h.1 x hx
    simpa using this
  · intro hx
    have := h.2 x hx
    simpa using this

theorem allOk_drop (os : List (Except Unit Nat)) (n : Nat) (h : allOk os) :
    allOk (os.drop n) := by
  intro o ho
  exact h o (List.drop_subset _ _ ho)

/-- Under an exception-free oracle, a batch loop emits one
`[call, status, sleep]` triple per batch, consumes one oracle entry per
batch, and does not exit. -/
theorem runBatches_shape (isAdd : Bool) (bs : List (List String))
    (os : List (Except Unit Nat)) (h : allOk os) :
    ∃ cs : List Nat, cs.length = bs.length ∧
      runBatches isAdd bs os =
        (tripleJoin isAdd bs cs, os.drop bs.length, false) := by
  induction bs generalizing os with
  | nil => exact ⟨[], rfl, rfl⟩
  | cons b bs ih =>
    cases os with
    | nil =>
      obtain ⟨cs, hlen, heq⟩ := ih [] (by intro o ho; simp at ho)
      refine ⟨200 :: cs, by simp [hlen], ?_⟩
      simp only [runBatches, heq, tripleJoin, List.drop_nil]
    | cons o os =>
      have hok : okCall o = true := h o (List.mem_cons_self o os)
      cases o with
      | error e => simp [okCall] at hok
      | ok c =>
        obtain ⟨cs, hlen, heq⟩ :=
          ih os (fun o ho => h o (List.mem_cons_of_mem _ ho))
        refine ⟨c :: cs, by simp [hlen], ?_⟩
        simp only [runBatches, heq, tripleJoin, List.length_cons,
          List.drop_succ_cons]

/-- On a transport exception the loop records the attempted call, prints
FATAL and exits at once: no sleep, no further batches. -/
theorem runBatches_error (isAdd : Bool) (b : List String)
    (bs : List (List String)) (os : List (Except Unit Nat)) :
    runBatches isAdd (b :: bs) (Except.error () :: os) =
      ([mkCall isAdd b, Ev.fatal], os, true) := rfl

theorem tripleJoin_batchesOf (isAdd : Bool) (bs : List (List String))
    (cs : List Nat) (h : cs.length = bs.length) :
    batchesOf (tripleJoin isAdd bs cs) = bs := by
  induction bs generalizing cs with
  | nil => cases cs <;> rfl
  | cons b bs ih =>
    cases cs with
    | nil => simp at h
    | cons c cs =>
      cases isAdd <;>
        simp only [tripleJoin, mkCall, if_true, if_false, Bool.false_eq_true,
          batchesOf, List.cons.injEq, true_and] <;>
        exact ih cs (by simpa using h)

theorem tripleJoin_countStatus (isAdd : Bool) (bs : List (List String))
    (cs : List Nat) (h : cs.length = bs.length) :
    (tripleJoin isAdd bs cs).countP Ev.isStatus = bs.length := by
  induction bs generalizing cs with
  | nil => cases cs <;> rfl
  | cons b bs ih =>
    cases cs with
    | nil => simp at h
    | cons c cs =>
      have := ih cs (by simpa using h)
      cases isAdd <;>
        simp [tripleJoin, mkCall, List.countP_cons, Ev.isStatus, this,
          Ev.isCall, Ev.isPut, Ev.isDel]

theorem tripleJoin_countCall (isAdd : Bool) (bs : List (List String))
    (cs : List Nat) (h : cs.length = bs.length) :
    (tripleJoin isAdd bs cs).countP Ev.isCall = bs.length := by
  induction bs generalizing cs with
  | nil => cases cs <;> rfl
  | cons b bs ih =>
    cases cs with
    | nil => simp at h
    | cons c cs =>
      have := ih cs (by simpa using h)
      cases isAdd <;>
        simp [tripleJoin, mkCall, List.countP_cons, Ev.isStatus, this,
          Ev.isCall, Ev.isPut, Ev.isDel]

theorem runBatches_no_del (bs : List (List String))
    (os : List (Except Unit Nat)) :
    ∀ e ∈ (runBatches true bs os).1, e.isDel = false := by
  induction bs generalizing os with
  | nil => intro e he; simp [runBatches] at he
  | cons b bs ih =>
    intro e he
    cases os with
    | nil =>
      simp only [runBatches, List.mem_cons] at he
      rcases he with rfl | rfl | rfl | he
      · rfl
      · rfl
      · rfl
      · exact ih [] e he
    | cons o os =>
      cases o with
      | ok c =>
        simp only [runBatches, List.mem_cons] at he
        rcases he with rfl | rfl | rfl | he
        · rfl
        · rfl
        · rfl
        · exact ih os e he
      | error u =>
        cases u
        rw [runBatches_error] at he
        simp only [List.mem_cons] at he
        rcases he with rfl | rfl | he
        · rfl
        · rfl
        · simp at he

theorem runBatches_no_put (bs : List (List String))
    (os : List (Except Unit Nat)) :
    ∀ e ∈ (runBatches false bs os).1, e.isPut = false := by
  induction bs generalizing os with
  | nil => intro e he; simp [runBatches] at he
  | cons b bs ih =>
    intro e he
    cases os with
    | nil =>
      simp only [runBatches, List.mem_cons] at he
      rcases he with rfl | rfl | rfl | he
      · rfl
      · rfl
      · rfl
      · exact ih [] e he
    | cons o os =>
      cases o with
      | ok c =>
        simp only [runBatches, List.mem_cons] at he
        rcases he with rfl | rfl | rfl | he
        · rfl
        · rfl
        · rfl
        · exact ih os e he
      | error u =>
        cases u
        rw [runBatches_error] at he
        simp only [List.mem_cons] at he
        rcases he with rfl | rfl | he
        · rfl
        · rfl
        · simp at he

theorem noPutAfterDel_of_no_put (l : List Ev)
    (h : ∀ e ∈ l, e.isPut = false) : noPutAfterDel l = true := by
  induction l with
  | nil => rfl
  | cons e rest ih =>
    cases e with
    | put b =>
      have := h (Ev.put b) (List.mem_cons_self _ _)
      simp [Ev.isPut] at this
    | del b =>
      simp only [noPutAfterDel, Bool.and_eq_true, List.all_eq_true]
      exact ⟨fun e he => by simp [h e (List.mem_cons_of_mem _ he)],
        ih fun e he => h e (List.mem_cons_of_mem _ he)⟩
    | status c => exact ih fun e he => h e (List.mem_cons_of_mem _ he)
    | sleep => exact ih fun e he => h e (List.mem_cons_of_mem _ he)
    | fatal => exact ih fun e he => h e (List.mem_cons_of_mem _ he)
    | summary m n => exact ih fun e he => h e (List.mem_cons_of_mem _ he)

theorem noPutAfterDel_append (l1 l2 : List Ev)
    (h1 : ∀ e ∈ l1, e.isDel = false) (h2 : ∀ e ∈ l2, e.isPut = false) :
    noPutAfterDel (l1 ++ l2) = true := by
  induction l1 with
  | nil => exact noPutAfterDel_of_no_put l2 h2
  | cons e rest ih =>
    cases e with
    | del b =>
      have := h1 (Ev.del b) (List.mem_cons_self _ _)
      simp [Ev.isDel] at this
    | put b =>
      exact ih fun e he => h1 e (List.mem_cons_of_mem _ he)
    | status c => exact ih fun e he => h1 e (List.mem_cons_of_mem _ he)
    | sleep => exact ih fun e he => h1 e (List.mem_cons_of_mem _ he)
    | fatal => exact ih fun e he => h1 e (List.mem_cons_of_mem _ he)
    | summary m n => exact ih fun e he => h1 e (List.mem_cons_of_mem _ he)

theorem pacedOk_tripleJoin (isAdd : Bool) (bs : List (List String))
    (cs : List Nat) (t : List Ev) :
    pacedOk (tripleJoin isAdd bs cs ++ t) = pacedOk t := by
  induction bs generalizing cs with
  | nil => cases cs <;> rfl
  | cons b bs ih =>
    cases cs with
    | nil => rfl
    | cons c cs =>
      cases isAdd <;>
        simpa only [tripleJoin, mkCall, if_true, if_false,
          Bool.false_eq_true, List.cons_append, pacedOk] using ih cs

/-- Per-group trace composition under an exception-free oracle: the group
does not abort, the leftover oracle is still exception-free, and the trace
is paced in any continuation. -/
theorem runGroup_allOk (L R : List String) (os : List (Except Unit Nat))
    (h : allOk os) :
    (runGroup L R os).2.2 = false ∧ allOk (runGroup L R os).2.1 ∧
      ∀ t, pacedOk ((runGroup L R os).1 ++ t) = pacedOk t := by
  cases hs : sameSet L R with
  | true =>
    simp only [runGroup, hs, if_true]
    exact ⟨trivial, h, fun t => rfl⟩
  | false =>
    obtain ⟨csa, hla, heqa⟩ :=
      runBatches_shape true (chunks (computeDelta L R).1) os h
    have h1 : allOk (os.drop (chunks (computeDelta L R).1).length) :=
      allOk_drop _ _ h
    obtain ⟨csr, hlr, heqr⟩ :=
      runBatches_shape false (chunks (computeDelta L R).2) _ h1
    simp only [runGroup, hs, Bool.false_eq_true, if_false, heqa, heqr]
    refine ⟨trivial, allOk_drop _ _ h1, fun t => ?_⟩
    rw [List.append_assoc, List.append_assoc, pacedOk_tripleJoin,
      pacedOk_tripleJoin]
    rfl

theorem runGroupFull_paced (g : GroupInput) (h : allOk g.oracle) :
    ∀ t, pacedOk ((runGroupFull g).1 ++ t) = pacedOk t := by
  intro t
  cases hr : g.rfetch with
  | error e => simp [runGroupFull, hr]; rfl
  | ok remoteM =>
    cases hl : g.lfetch with
    | error e => simp [runGroupFull, hr, hl]; rfl
    | ok localM =>
      simp only [runGroupFull, hr, hl]
      exact (runGroup_allOk localM remoteM g.oracle h).2.2 t

theorem runAll_paced (gs : List GroupInput)
    (h : ∀ g ∈ gs, allOk g.oracle) : pacedOk (runAll gs).1 = true := by
  induction gs with
  | nil => rfl
  | cons g gs ih =>
    have hg : allOk g.oracle := h g (List.mem_cons_self _ _)
    have hrest : pacedOk (runAll gs).1 = true :=
      ih fun p hp => h p (List.mem_cons_of_mem _ hp)
    simp only [runAll]
    cases hab : (runGroupFull g).2 with
    | true =>
      simp only [if_true]
      have := runGroupFull_paced g hg []
      rw [List.append_nil] at this
      exact this
    | false =>
      simp only [Bool.false_eq_true, if_false]
      rw [runGroupFull_paced g hg]
      exact hrest

theorem noPutAfterDel_of_no_del (l : List Ev)
    (h : ∀ e ∈ l, e.isDel = false) : noPutAfterDel l = true := by
  have := noPutAfterDel_append l [] h (by intro e he; simp at he)
  simpa using this

theorem runGroup_noPutAfterDel (L R : List String)
    (os : List (Except Unit Nat)) :
    noPutAfterDel (runGroup L R os).1 = true := by
  cases hs : sameSet L R with
  | true => simp only [runGroup, hs, if_true]; rfl
  | false =>
    simp only [runGroup, hs, Bool.false_eq_true, if_false]
    cases hab : (runBatches true (chunks (computeDelta L R).1) os).2.2 with
    | true =>
      simp only [hab, if_true]
      exact noPutAfterDel_of_no_del _ (runBatches_no_del _ _)
    | false =>
      simp only [hab, Bool.false_eq_true, if_false]
      cases hab2 : (runBatches false (chunks (computeDelta L R).2)
          (runBatches true (chunks (computeDelta L R).1) os).2.1).2.2 with
      | true =>
        simp only [hab2, if_true]
        exact noPutAfterDel_append _ _ (runBatches_no_del _ _)
          (runBatches_no_put _ _)
      | false =>
        simp only [hab2, Bool.false_eq_true, if_false]
        rw [List.append_assoc]
        refine noPutAfterDel_append _ _ (runBatches_no_del _ _) ?_
        intro e he
        rcases List.mem_append.mp he with he | he
        · exact runBatches_no_put _ _ e he
        · simp only [List.mem_singleton] at he
          subst he
          rfl

theorem netidCore_eq_spec (s : List Char) :
    netidCore s = specNetidValid s := by
  cases s with
  | nil => rfl
  | cons c rest =>
    show (isLowerAZ c && decide (rest.length ≤ 7) && rest.all isLowerDigit)
        = (isLowerAZ c && decide ((c :: rest).length ≤ 8)
            && rest.all (fun d => isLowerAZ d || isDigit09 d))
    have h : decide (rest.length ≤ 7) = decide ((c :: rest).length ≤ 8) := by
      simp only [List.length_cons, decide_eq_decide]
      omega
    rw [h]
    rfl

theorem pySplit_ne_nil (sep : Char) (s : List Char) : pySplit sep s ≠ [] := by
  induction s with
  | nil => simp [pySplit]
  | cons c rest ih =>
    by_cases hc : c = sep
    · simp [pySplit, hc]
    · simp only [pySplit, hc, if_false]
      cases hr : pySplit sep rest with
      | nil => simp
      | cons f fs => simp

theorem runAll_exit_one (pre : List GroupInput) (g : GroupInput)
    (gs : List GroupInput) (hg : (runGroupFull g).2 = true) :
    (∀ p ∈ pre, (runGroupFull p).2 = false) →
      (runAll (pre ++ g :: gs)).2 = 1 := by
  induction pre with
  | nil =>
    intro _
    simp [runAll, hg]
  | cons p pre ih =>
    intro hpre
    have hp : (runGroupFull p).2 = false := hpre p (List.mem_cons_self _ _)
    simp only [List.cons_append, runAll, hp, Bool.false_eq_true, if_false]
    exact ih fun q hq => hpre q (List.mem_cons_of_mem _ hq)

/-! ## Claim theorems -/

/-- C1: for every pair of fetched membership lists (local L, remote R), the
computed delta's add list contains exactly the members of L not in R, its
remove list contains exactly the members of R not in L, and the two lists
are disjoint. -/
theorem delta_membership_correct (L R : List String) (x : String) :
    (x ∈ (computeDelta L R).1 ↔ x ∈ L ∧ x ∉ R) ∧
    (x ∈ (computeDelta L R).2 ↔ x ∈ R ∧ x ∉ L) ∧
    ¬(x ∈ (computeDelta L R).1 ∧ x ∈ (computeDelta L R).2) := by
  have hmain : (x ∈ (computeDelta L R).1 ↔ x ∈ L ∧ x ∉ R) ∧
      (x ∈ (computeDelta L R).2 ↔ x ∈ R ∧ x ∉ L) := by
    cases hs : sameSet L R with
    | true =>
      simp only [computeDelta, hs, if_true]
      constructor
      · simp only [List.not_mem_nil, false_iff]
        rintro ⟨hL, hR⟩
        exact hR ((sameSet_mem L R hs x).mp hL)
      · simp only [List.not_mem_nil, false_iff]
        rintro ⟨hR, hL⟩
        exact hL ((sameSet_mem L R hs x).mpr hR)
    | false =>
      simp only [computeDelta, hs, Bool.false_eq_true, if_false]
      constructor
      · simp [List.mem_filter]
      · simp [List.mem_filter]
  refine ⟨hmain.1, hmain.2, ?_⟩
  rintro ⟨h1, h2⟩
  exact (hmain.1.mp h1).2 (hmain.2.mp h2).1

/-- C1 instance at a concrete input. -/
theorem delta_membership_correct_witness :
    ("a" ∈ (computeDelta ["a"] ["b"]).1 ↔
        "a" ∈ (["a"] : List String) ∧ "a" ∉ (["b"] : List String)) :=
  (delta_membership_correct ["a"] ["b"] "a").1

/-- C2 counterexample: the string "a\n" (a valid id plus a trailing newline)
is accepted by the code's validator, because Python's `$` matches just
before a final newline, while the claim says a string containing whitespace
such as a trailing newline is rejected. -/
theorem validator_trailing_newline_cex :
    reMatchNetid (("a\n").toList) = true ∧
      specNetidValid (("a\n").toList) = false := by
  decide

/-- C2 (amended): the validator accepts a string iff the string itself, or
the string with one final newline removed, matches the anchored pattern
`^[a-z][a-z0-9]{0,7}$`; on newline-free strings this is exactly the claimed
behavior (rejecting empty, digit-initial, overlong and non-lowercase-ASCII
strings). -/
theorem validator_matches_spec_modulo_newline (s : List Char) :
    reMatchNetid s = true ↔
      (specNetidValid s = true ∨
        (s.getLast? = some ('\n') ∧ specNetidValid s.dropLast = true)) := by
  simp [reMatchNetid, netidCore_eq_spec, Bool.or_eq_true, Bool.and_eq_true,
    beq_iff_eq]

/-- C3: for an add/remove set of size N, the loop issues exactly ⌈N/50⌉
calls, each batch carries at most 50 identifiers, and the batches
partition the original list (no duplicates, no omissions). -/
theorem batching_correct (l : List String) (os : List (Except Unit Nat))
    (hnd : l.Nodup) (h : allOk os) :
    (chunks l).length = (l.length + 49) / 50 ∧
    (∀ c ∈ chunks l, c.length ≤ 50) ∧
    (chunks l).flatten = l ∧
    (chunks l).flatten.Nodup ∧
    batchesOf (runBatches true (chunks l) os).1 = chunks l ∧
    (runBatches true (chunks l) os).1.countP Ev.isCall =
      (l.length + 49) / 50 := by
  obtain ⟨cs, hlen, heq⟩ := runBatches_shape true (chunks l) os h
  refine ⟨chunks_length l, chunks_mem_le l, chunks_join l, ?_, ?_, ?_⟩
  · rw [chunks_join]
    exact hnd
  · rw [heq]
    exact tripleJoin_batchesOf true (chunks l) cs hlen
  · rw [heq]
    show (tripleJoin true (chunks l) cs).countP Ev.isCall = _
    rw [tripleJoin_countCall true (chunks l) cs hlen, chunks_length]

/-- C3 instance at a concrete input. -/
theorem batching_correct_witness :
    (chunks (["a", "b", "c"] : List String)).flatten = ["a", "b", "c"] :=
  (batching_correct ["a", "b", "c"] [Except.ok 500] (by decide)
    (by decide)).2.2.1

/-- C4: in any group's trace, every PUT (add) batch call occurs strictly
before every DELETE (remove) batch call: no PUT appears after any DELETE. -/
theorem adds_before_removes (g : GroupInput) :
    noPutAfterDel (runGroupFull g).1 = true := by
  cases hr : g.rfetch with
  | error e => simp only [runGroupFull, hr]; rfl
  | ok remoteM =>
    cases hl : g.lfetch with
    | error e => simp only [runGroupFull, hr, hl]; rfl
    | ok localM =>
      simp only [runGroupFull, hr, hl]
      exact runGroup_noPutAfterDel localM remoteM g.oracle

/-- C5: when the fetched local and remote lists are equal as sets the delta
is empty, the group's trace is just the summary line, and zero add/remove
API calls are issued. -/
theorem equal_sets_no_calls (L R : List String) (os : List (Except Unit Nat))
    (h : sameSet L R = true) :
    computeDelta L R = ([], []) ∧
    runGroup L R os = ([Ev.summary 0 0], os, false) ∧
    apiCalls (runGroup L R os).1 = [] := by
  have h2 : runGroup L R os = ([Ev.summary 0 0], os, false) := by
    simp [runGroup, h]
  refine ⟨by simp [computeDelta, h], h2, ?_⟩
  rw [h2]
  rfl

/-- C5 instance at a concrete input. -/
theorem equal_sets_no_calls_witness :
    runGroup ["a"] ["a"] [] = ([Ev.summary 0 0], [], false) :=
  (equal_sets_no_calls ["a"] ["a"] [] (by decide)).2.1

/-- C6 counterexample: when the only batch call raises a transport
exception, the run's trace is the call followed immediately by the fatal
exit, with no sleep anywhere — so the claimed delay after a failed
(exception) call does not happen. -/
theorem no_sleep_after_exception_cex :
    (runAll [⟨Except.ok ["b"], Except.ok ["a"], [Except.error ()]⟩]).1 =
        [Ev.put ["a"], Ev.fatal] ∧
      Ev.sleep ∉
        (runAll [⟨Except.ok ["b"], Except.ok ["a"], [Except.error ()]⟩]).1 := by
  decide

/-- C6 (amended): after every batch call that completes with a status code
(success or not) a one-second sleep follows before anything else; a
transport-level exception instead aborts immediately — FATAL and exit with
no sleep. -/
theorem pacing_after_completed_calls (gs : List GroupInput) (isAdd : Bool)
    (b : List String) (bs : List (List String))
    (os : List (Except Unit Nat)) (h : ∀ g ∈ gs, allOk g.oracle) :
    pacedOk (runAll gs).1 = true ∧
      runBatches isAdd (b :: bs) (Except.error () :: os) =
        ([mkCall isAdd b, Ev.fatal], os, true) :=
  ⟨runAll_paced gs h, runBatches_error isAdd b bs os⟩

/-- C6 (amended) instance at a concrete input. -/
theorem pacing_after_completed_calls_witness :
    pacedOk (runAll [⟨Except.ok ["b"], Except.ok ["a"],
        [Except.ok 404]⟩]).1 = true :=
  (pacing_after_completed_calls
      [⟨Except.ok ["b"], Except.ok ["a"], [Except.ok 404]⟩]
      true ["x"] [] [] (by decide)).1

/-- C7: with fetched local set {} and remote set {a, ab, abc} (all valid
ids), the delta is (∅, {a, ab, abc}) and the group issues exactly one
DELETE batch carrying all three ids and zero PUT batches. -/
theorem teardown_scenario :
    computeDelta [] ["a", "ab", "abc"] = ([], ["a", "ab", "abc"]) ∧
    runGroup [] ["a", "ab", "abc"] [] =
      ([Ev.del ["a", "ab", "abc"], Ev.status 200, Ev.sleep,
          Ev.summary 0 3], [], false) ∧
    (runGroup [] ["a", "ab", "abc"] []).1.countP Ev.isDel = 1 ∧
    (runGroup [] ["a", "ab", "abc"] []).1.countP Ev.isPut = 0 ∧
    reMatchNetid (("a").toList) = true ∧
    reMatchNetid (("ab").toList) = true ∧
    reMatchNetid (("abc").toList) = true := by
  decide

/-- C8: a completed batch call never aborts the run whatever its status
code (the status is only logged, one STATUS line per batch, and every
batch is still issued), a transport exception is immediately fatal, and a
group that does not abort lets the following groups be processed. -/
theorem status_ignored_exception_fatal (isAdd : Bool)
    (bs : List (List String)) (os : List (Except Unit Nat))
    (b : List String) (g : GroupInput) (gs : List GroupInput) :
    (allOk os →
      (runBatches isAdd bs os).2.2 = false ∧
      batchesOf (runBatches isAdd bs os).1 = bs ∧
      (runBatches isAdd bs os).1.countP Ev.isStatus = bs.length) ∧
    runBatches isAdd (b :: bs) (Except.error () :: os) =
      ([mkCall isAdd b, Ev.fatal], os, true) ∧
    ((runGroupFull g).2 = false →
      runAll (g :: gs) = ((runGroupFull g).1 ++ (runAll gs).1,
        (runAll gs).2)) := by
  refine ⟨?_, runBatches_error isAdd b bs os, ?_⟩
  · intro h
    obtain ⟨cs, hlen, heq⟩ := runBatches_shape isAdd bs os h
    rw [heq]
    exact ⟨rfl, tripleJoin_batchesOf _ _ _ hlen,
      tripleJoin_countStatus _ _ _ hlen⟩
  · intro hab
    simp [runAll, hab]

/-- C8 instance at a concrete input (a 500 status does not abort). -/
theorem status_ignored_exception_fatal_witness :
    (runBatches true [["a"]] [Except.ok 500]).2.2 = false :=
  ((status_ignored_exception_fatal true [["a"]] [Except.ok 500] ["x"]
      ⟨Except.ok [], Except.ok [], []⟩ []).1 (by decide)).1

/-- C9: if fetching either membership list of a group raises, that group's
trace is just the FATAL report — no add/remove call is attempted for it —
and, provided the groups before it did not abort, the whole run terminates
with exit code 1. -/
theorem fetch_error_fatal_run (pre : List GroupInput) (g : GroupInput)
    (gs : List GroupInput)
    (hf : g.rfetch = Except.error () ∨ g.lfetch = Except.error ())
    (hpre : ∀ p ∈ pre, (runGroupFull p).2 = false) :
    runGroupFull g = ([Ev.fatal], true) ∧
    apiCalls (runGroupFull g).1 = [] ∧
    (runAll (pre ++ g :: gs)).2 = 1 := by
  have hg : runGroupFull g = ([Ev.fatal], true) := by
    rcases hf with hf | hf
    · simp [runGroupFull, hf]
    · cases hr : g.rfetch with
      | error e => simp [runGroupFull, hr]
      | ok remoteM => simp [runGroupFull, hr, hf]
  refine ⟨hg, by rw [hg]; rfl, ?_⟩
  exact runAll_exit_one pre g gs (by rw [hg]) hpre

/-- C9 instance at a concrete input. -/
theorem fetch_error_fatal_run_witness :
    (runAll ([⟨Except.ok [], Except.ok [], []⟩] ++
        ⟨Except.error (), Except.ok ["a"], []⟩ :: [])).2 = 1 :=
  (fetch_error_fatal_run [⟨Except.ok [], Except.ok [], []⟩]
      ⟨Except.error (), Except.ok ["a"], []⟩ []
      (Or.inl rfl) (by decide)).2.2

/-- C10: the local adapter never returns an empty member list; on a group
record whose fourth field is empty it returns the one-element list
containing the empty string, and that empty string lands in the add list
of the delta against a remote set not containing it. -/
theorem local_adapter_empty_field :
    (∀ (out : String) (l : List String),
        get_local_group_members out = some l → l ≠ []) ∧
    get_local_group_members ("grp:x:1000:") = some [""] ∧
    "" ∈ (computeDelta [""] ["abc"]).1 := by
  refine ⟨?_, by decide, by decide⟩
  intro out l h
  simp only [get_local_group_members, Option.map_eq_some'] at h
  obtain ⟨f, hf, hl⟩ := h
  subst hl
  simp only [ne_eq, List.map_eq_nil_iff]
  exact pySplit_ne_nil ',' f

/-- C10 instance at a concrete input. -/
theorem local_adapter_empty_field_witness : ([""] : List String) ≠ [] :=
  local_adapter_empty_field.1 ("grp:x:1000:") [""] (by decide)

end GroupsSync
